import Mathlib

/-
  Verification of the webrtc task-queue specification and the
  encoded-image / media-constraints helpers.

  Source-based definitions (translated from files under src/):
    - EncodedImage, EncodedImage.GetBufferPaddingBytes, EncodedImage.Retain
      from api/video/encoded_image.cc
    - Constraint, FindFirst, MediaConstraints, FindConstraint
      from the media-constraints helper (FindConstraint specialization for
      strings and MediaConstraintsInterface::Constraints::FindFirst)

  Spec-modelled definitions: the task-queue core (rtc_base task_queue),
  its closure adapter (NewClosure / ClosureTask / ClosureTaskWithCleanup)
  and its delay scheduler are not under src/; only the unit tests
  (rtc_base/task_queue_unittest.cc) are.  Those components are modelled
  from the natural-language spec, with each such definition marked by a
  doc comment starting with: Modelled from the spec.
-/

/- ===================== EncodedImage (api/video/encoded_image.cc) ===== -/

/-- Video codec type enumeration, as matched in GetBufferPaddingBytes. -/
inductive VideoCodecType where
  | kVideoCodecGeneric
  | kVideoCodecVP8
  | kVideoCodecVP9
  | kVideoCodecH264
  | kVideoCodecMultiplex
deriving DecidableEq

/-- FFmpeg-required padding for H264 bitstreams (encoded_image.cc). -/
def kBufferPaddingBytesH264 : Nat := 8

/-- EncodedImage fields touched by encoded_image.cc.  The raw buffer is a
pointer to bytes; it is modelled as an optional byte map (none is the null
pointer). -/
structure EncodedImage where
  size_ : Nat
  buffer_ : Option (Nat → Nat)
  capacity_ : Nat
  encoded_data_ : List Nat
  encode_start_ms : Int
  encode_finish_ms : Int

/-- EncodedImage::GetBufferPaddingBytes: switch on the codec type; H264
returns kBufferPaddingBytesH264, every other case returns 0. -/
def EncodedImage.GetBufferPaddingBytes : VideoCodecType → Nat
  | VideoCodecType.kVideoCodecH264 => kBufferPaddingBytesH264
  | _ => 0

/-- EncodedImage::Retain: if buffer_ is non-null, copy the first size_
bytes of buffer_ into encoded_data_ and null out buffer_; otherwise do
nothing. -/
def EncodedImage.Retain (e : EncodedImage) : EncodedImage :=
  match e.buffer_ with
  | none => e
  | some buf =>
      { e with
        encoded_data_ := (List.range e.size_).map buf
        buffer_ := none }

/-- EncodedImage::SetEncodeTime: store the two timing fields. -/
def EncodedImage.SetEncodeTime (e : EncodedImage) (start fin : Int) :
    EncodedImage :=
  { e with encode_start_ms := start, encode_finish_ms := fin }

/- =========== Media constraints (FindConstraint / FindFirst) ========== -/

/-- One key/value constraint entry. -/
structure Constraint where
  key : String
  value : String

/-- MediaConstraintsInterface::Constraints::FindFirst: the value of the
first entry whose key matches, or none. -/
def FindFirst : List Constraint → String → Option String
  | [], _ => none
  | c :: rest, key => if c.key = key then some c.value else FindFirst rest key

/-- The mandatory and optional constraint lists of a constraints object. -/
structure MediaConstraints where
  mandatory : List Constraint
  optional : List Constraint

/-- FindConstraint specialized for strings: null constraints give false;
a mandatory match returns its value and bumps the counter when the counter
pointer is non-null; otherwise an optional match returns its value without
touching the counter; otherwise false.  The result triple is
(return value, value written if any, counter state). -/
def FindConstraint (constraints : Option MediaConstraints) (key : String)
    (mandatoryCount : Option Nat) : Bool × Option String × Option Nat :=
  match constraints with
  | none => (false, none, mandatoryCount)
  | some cs =>
    match FindFirst cs.mandatory key with
    | some v => (true, some v, mandatoryCount.map (· + 1))
    | none =>
      match FindFirst cs.optional key with
      | some v => (true, some v, mandatoryCount)
      | none => (false, none, mandatoryCount)

/- ================== Task queue: immediate-post FIFO model ============ -/

/-- Modelled from the spec: the task-queue core (rtc_base task_queue) is
not under src/.  A posted task is a unit of work that may itself post
further tasks to the same queue while it runs (spec sections 3 and 4.1). -/
inductive PTask where
  | mk : Nat → List PTask → PTask

/-- Identifier of a posted task. -/
def PTask.tid : PTask → Nat
  | .mk i _ => i

/-- The tasks a task posts to its own queue while running. -/
def PTask.posts : PTask → List PTask
  | .mk _ ps => ps

mutual
/-- Total number of tasks reachable from one task (termination measure). -/
def tweight : PTask → Nat
  | .mk _ ps => 1 + lweight ps

/-- Total number of tasks reachable from a task list. -/
def lweight : List PTask → Nat
  | [] => 0
  | t :: ts => tweight t + lweight ts
end

/-- Modelled from the spec: the single-worker loop of a task queue (the
rtc_base task-queue implementation is not under src/).  The worker pops
the head of the FIFO, runs it, and appends whatever that task posted to
the tail of the queue, after every task already queued at the moment of
posting (spec section 3, Task Queue invariant).  The result is the order
in which task identifiers start executing. -/
def execTrace : List PTask → List Nat
  | [] => []
  | .mk i posts :: rest => i :: execTrace (rest ++ posts)
termination_by q => lweight q
decreasing_by
  simp only [lweight, tweight]
  induction rest with
  | nil => simp only [List.nil_append, lweight]; omega
  | cons t r ih =>
    simp only [List.cons_append, lweight, List.append_eq] at ih ⊢
    omega

/- ============ Closure adapter (paired run/cleanup closures) ========== -/

/-- Observable invocations of the two callables of a paired closure task. -/
inductive CEv where
  | runCallable (tid : Nat)
  | cleanupCallable (tid : Nat)
deriving DecidableEq

/-- Modelled from the spec: ClosureTask::Run of the closure adapter
(rtc_base task_queue NewClosure machinery, not under src/) invokes the
wrapped run callable once and returns true (spec section 4.2). -/
def closureTaskRun (tid : Nat) : List CEv × Bool :=
  ([CEv.runCallable tid], true)

/-- Modelled from the spec: destroying a paired closure task invokes its
cleanup callable exactly once; spec section 8 requires the total number of
cleanup invocations to equal the number of tasks posted (test PostALot),
so destruction fires the cleanup whether or not the task ran. -/
def pairedTaskDestroy (tid : Nat) : List CEv :=
  [CEv.cleanupCallable tid]

/-- Lifecycle of a paired closure task that executes normally: the queue
runs it, Run returns true, and the queue then destroys it. -/
def pairedTaskNormalLife (tid : Nat) : List CEv :=
  (closureTaskRun tid).1 ++ pairedTaskDestroy tid

/-- Lifecycle of a paired closure task discarded without running (capacity
overflow or queue destruction): only the destruction happens. -/
def pairedTaskDroppedLife (tid : Nat) : List CEv :=
  pairedTaskDestroy tid

/-- Outcome of one posted task in the capacity-overflow scenario. -/
inductive Fate where
  | executed
  | discardedAtShutdown
  | droppedAtPost
deriving DecidableEq

/-- Modelled from the spec: capacity-overflow policy of PostTask (spec
sections 4.1 and 7; the transport implementation is not under src/).
With the worker blocked, the first cap posts are accepted and the rest
are dropped at post time; of the accepted tasks, the first k run before
the queue is destroyed and the remainder are discarded at shutdown. -/
def fateOf (cap k i : Nat) : Fate :=
  if i < cap then (if i < k then Fate.executed else Fate.discardedAtShutdown)
  else Fate.droppedAtPost

/-- The callable invocations produced over the lifetime of task i under a
given fate. -/
def fateLife (i : Nat) : Fate → List CEv
  | Fate.executed => pairedTaskNormalLife i
  | Fate.discardedAtShutdown => pairedTaskDroppedLife i
  | Fate.droppedAtPost => pairedTaskDroppedLife i

/-- All callable invocations when N paired tasks are posted to a queue of
capacity cap of which the first k accepted ones run. -/
def postALotEvents (cap k N : Nat) : List CEv :=
  (List.range N).flatMap fun i => fateLife i (fateOf cap k i)

/-- Number of cleanup-callable invocations in an event list. -/
def cleanupCount (l : List CEv) : Nat :=
  l.countP fun e => match e with
    | CEv.cleanupCallable _ => true
    | _ => false

/-- Number of run-callable invocations in an event list. -/
def runCount (l : List CEv) : Nat :=
  l.countP fun e => match e with
    | CEv.runCallable _ => true
    | _ => false

/- ===================== Delay scheduler model ========================= -/

/-- A delayed entry: task identifier, absolute fire time, and a sequence
number for FIFO tie-breaking. -/
structure DEntry where
  tid : Nat
  fireTime : Nat
  seq : Nat
deriving DecidableEq

/-- Ordering of delayed entries by (fire time, sequence). -/
def entryLE (a b : DEntry) : Bool :=
  decide (a.fireTime < b.fireTime) ||
    (decide (a.fireTime = b.fireTime) && decide (a.seq ≤ b.seq))

/-- Stable ordered insertion into the pending-entry list. -/
def insertOrdered (e : DEntry) : List DEntry → List DEntry
  | [] => [e]
  | f :: fs => if entryLE f e then f :: insertOrdered e fs else e :: f :: fs

/-- Modelled from the spec: the delay scheduler state (spec section 4.3;
the implementation is not under src/): pending entries ordered by
(fire time, sequence) plus the next sequence number. -/
structure Sched where
  entries : List DEntry
  nextSeq : Nat

/-- Modelled from the spec: Schedule(task, delay_ms) computes
fire time = now + delay, assigns the next sequence number and inserts. -/
def Sched.schedule (s : Sched) (now tid delay : Nat) : Sched :=
  { entries := insertOrdered ⟨tid, now + delay, s.nextSeq⟩ s.entries
    nextSeq := s.nextSeq + 1 }

/-- Modelled from the spec: NextDue(now) removes and returns every entry
whose fire time is at or before now, in list (ascending) order. -/
def Sched.nextDue (now : Nat) (s : Sched) : List DEntry × Sched :=
  (s.entries.filter (fun e => decide (e.fireTime ≤ now)),
   { s with entries := s.entries.filter (fun e => !decide (e.fireTime ≤ now)) })

/-- Modelled from the spec: the worker loop over an advancing monotonic
clock.  Starting at time now it performs fuel clock steps; at each step it
dequeues the due entries and records (time, task) run events, then the
clock advances by one millisecond.  Returns the run events and the final
scheduler state. -/
def driveSt : Nat → Nat → Sched → List (Nat × Nat) × Sched
  | _, 0, s => ([], s)
  | now, fuel + 1, s =>
    let p := Sched.nextDue now s
    let r := driveSt (now + 1) fuel p.2
    (p.1.map (fun e => (now, e.tid)) ++ r.1, r.2)

/-- Run events only of the clock-driven worker loop. -/
def drive (now fuel : Nat) (s : Sched) : List (Nat × Nat) :=
  (driveSt now fuel s).1

/-- The PostMultipleDelayed batch: N delayed tasks posted at time 0, task
i with delay i milliseconds. -/
def batchSched (N : Nat) : Sched :=
  (List.range N).foldl (fun s i => s.schedule 0 i i) ⟨[], 0⟩

/-- Modelled from the spec: when a queue is destroyed, the delay
mechanism drains every pending delayed entry and destroys its task
without running it, which fires the paired cleanup callable (spec
sections 4.1 destructor, 4.3 and 7). -/
def drainOnDestroy (s : Sched) : List CEv :=
  s.entries.map (fun e => CEv.cleanupCallable e.tid)

/-- The PostDelayedAfterDestruct situation: a paired task with delay
100 ms is posted at time 0, the clock runs for t steps, and then the
queue is destroyed while the entry is still pending.  All callable
invocations are returned: run events from the worker loop followed by the
drain performed by the delay mechanism. -/
def destructWithPending (x t : Nat) : List CEv :=
  let s0 := Sched.schedule ⟨[], 0⟩ 0 x 100
  let r := driveSt 0 t s0
  r.1.map (fun p => CEv.runCallable p.2) ++ drainOnDestroy r.2

/- ============== Two-queue ownership-transfer model =================== -/

/-- Result of one Run invocation: done (Run returned true, the queue must
destroy the task) or transfer (the task reposted itself to queue q and
Run returned false). -/
inductive RunRes where
  | done
  | transfer (q : Nat)
deriving DecidableEq

/-- A reusable task: identifier plus the planned result of each
successive run; an exhausted plan behaves as done. -/
structure RTask where
  tid : Nat
  plan : List RunRes
deriving DecidableEq

/-- Observable queue actions on tasks. -/
inductive QEv where
  | ran (q : Nat) (tid : Nat)
  | destroyed (q : Nat) (tid : Nat)
deriving DecidableEq

/-- The task an event refers to. -/
def QEv.taskId : QEv → Nat
  | .ran _ i => i
  | .destroyed _ i => i

/-- Modelled from the spec: running one task on queue qi (spec sections 3
and 4.1; the implementation is not under src/).  If Run returns true the
queue destroys the task; if it returns false the task was reposted and
the queue must not touch it again, so no destroy event is emitted and the
task (with the rest of its plan) is handed to the target queue. -/
def runTaskOn (qi : Nat) (t : RTask) : List QEv × Option (Nat × RTask) :=
  match t.plan with
  | RunRes.transfer j :: rest => ([QEv.ran qi t.tid], some (j, ⟨t.tid, rest⟩))
  | RunRes.done :: _ => ([QEv.ran qi t.tid, QEv.destroyed qi t.tid], none)
  | [] => ([QEv.ran qi t.tid, QEv.destroyed qi t.tid], none)

/-- Append a transferred task to the tail of queue 0 (j = 0) or queue 1
(any other target). -/
def enqueueTo (j : Nat) (t : RTask) (s : List RTask × List RTask) :
    List RTask × List RTask :=
  if j = 0 then (s.1 ++ [t], s.2) else (s.1, s.2 ++ [t])

/-- Modelled from the spec: one step of the two-queue system.  The
scheduled queue (false = queue 0, true = queue 1) pops and runs its head
task if it has one. -/
def sysStep (which : Bool) (s : List RTask × List RTask) :
    List QEv × (List RTask × List RTask) :=
  match which, s with
  | false, ([], q2) => ([], ([], q2))
  | false, (t :: rest, q2) =>
    match runTaskOn 0 t with
    | (evs, none) => (evs, (rest, q2))
    | (evs, some (j, u)) => (evs, enqueueTo j u (rest, q2))
  | true, (q1, []) => ([], (q1, []))
  | true, (q1, t :: rest) =>
    match runTaskOn 1 t with
    | (evs, none) => (evs, (q1, rest))
    | (evs, some (j, u)) => (evs, enqueueTo j u (q1, rest))

/-- Run the two-queue system under an interleaving schedule, returning
the event log. -/
def runSched : List Bool → (List RTask × List RTask) → List QEv
  | [], _ => []
  | w :: ws, s => (sysStep w s).1 ++ runSched ws (sysStep w s).2

/- ========================= Theorems ================================== -/

theorem execTrace_nil : execTrace [] = [] := by
  unfold execTrace
  rfl

theorem execTrace_cons (i : Nat) (posts rest : List PTask) :
    execTrace (PTask.mk i posts :: rest) = i :: execTrace (rest ++ posts) := by
  conv_lhs => unfold execTrace

theorem execTrace_flat (ts : List PTask) (h : ∀ t ∈ ts, t.posts = []) :
    execTrace ts = ts.map PTask.tid := by
  induction ts with
  | nil => simp [execTrace_nil]
  | cons t rest ih =>
    cases t with
    | mk i ps =>
      have hps : ps = [] := h (PTask.mk i ps) (List.mem_cons_self _ _)
      subst hps
      rw [execTrace_cons]
      simp only [List.append_nil, List.map_cons, PTask.tid]
      exact congrArg (i :: ·) (ih fun t ht => h t (List.mem_cons_of_mem _ ht))

/-- C1: tasks posted by one caller to one queue without interleaving run
in exactly the submission order; a task posted from within a running task
is appended after every task already queued at the moment of posting and
never starts before the running task returns. -/
theorem postTask_fifo :
    (∀ ts : List PTask, (∀ t ∈ ts, t.posts = []) →
      execTrace ts = ts.map PTask.tid) ∧
    (∀ (i : Nat) (posts rest : List PTask),
      execTrace (PTask.mk i posts :: rest) = i :: execTrace (rest ++ posts)) ∧
    (∀ (i : Nat) (posts rest : List PTask),
      (∀ t ∈ rest, t.posts = []) → (∀ t ∈ posts, t.posts = []) →
      execTrace (PTask.mk i posts :: rest) =
        i :: (rest.map PTask.tid ++ posts.map PTask.tid)) := by
  refine ⟨execTrace_flat, execTrace_cons, ?_⟩
  intro i posts rest hrest hposts
  rw [execTrace_cons]
  rw [execTrace_flat (rest ++ posts) ?_]
  · rw [List.map_append]
  · intro t ht
    rcases List.mem_append.1 ht with h | h
    · exact hrest t h
    · exact hposts t h

/-- Witness for C1 at concrete inputs. -/
theorem postTask_fifo_witness :
    execTrace [PTask.mk 1 [], PTask.mk 2 []] = [1, 2] ∧
    execTrace [PTask.mk 1 [PTask.mk 3 []], PTask.mk 2 []] = [1, 2, 3] := by
  constructor
  · exact postTask_fifo.1 [PTask.mk 1 [], PTask.mk 2 []] (by
      intro t ht
      simp only [List.mem_cons, List.not_mem_nil, or_false] at ht
      rcases ht with rfl | rfl <;> rfl)
  · have h := postTask_fifo.2.2 1 [PTask.mk 3 []] [PTask.mk 2 []]
      (by
        intro t ht
        simp only [List.mem_cons, List.not_mem_nil, or_false] at ht
        rcases ht with rfl
        rfl)
      (by
        intro t ht
        simp only [List.mem_cons, List.not_mem_nil, or_false] at ht
        rcases ht with rfl
        rfl)
    simpa [PTask.tid] using h

/-- C8: GetBufferPaddingBytes returns kBufferPaddingBytesH264 = 8 for
H264 and 0 for every other codec type. -/
theorem getBufferPaddingBytes_spec :
    kBufferPaddingBytesH264 = 8 ∧
    ∀ c : VideoCodecType,
      EncodedImage.GetBufferPaddingBytes c =
        if c = VideoCodecType.kVideoCodecH264 then 8 else 0 := by
  refine ⟨rfl, ?_⟩
  intro c
  cases c <;> rfl

/-- C9: Retain is idempotent; with a null buffer it changes nothing, and
with a non-null buffer it copies exactly the first size_ bytes into
encoded_data_, nulls the buffer and leaves every other field unchanged. -/
theorem retain_idempotent :
    ∀ e : EncodedImage,
      (e.buffer_ = none → e.Retain = e) ∧
      (∀ buf, e.buffer_ = some buf →
        e.Retain.encoded_data_ = (List.range e.size_).map buf ∧
        e.Retain.buffer_ = none ∧
        e.Retain.size_ = e.size_ ∧
        e.Retain.capacity_ = e.capacity_ ∧
        e.Retain.encode_start_ms = e.encode_start_ms ∧
        e.Retain.encode_finish_ms = e.encode_finish_ms) ∧
      e.Retain.Retain = e.Retain := by
  intro e
  refine ⟨?_, ?_, ?_⟩
  · intro h
    simp [EncodedImage.Retain, h]
  · intro buf h
    simp [EncodedImage.Retain, h]
  · cases hb : e.buffer_ with
    | none => simp [EncodedImage.Retain, hb]
    | some buf => simp [EncodedImage.Retain, hb]

/-- Witness for C9 at a concrete image. -/
theorem retain_idempotent_witness :
    (EncodedImage.Retain ⟨2, some (fun n => n + 1), 4, [], 0, 0⟩).buffer_ = none ∧
    (EncodedImage.Retain ⟨2, some (fun n => n + 1), 4, [], 0, 0⟩).encoded_data_ =
      (List.range 2).map (fun n => n + 1) ∧
    (EncodedImage.Retain ⟨2, some (fun n => n + 1), 4, [], 0, 0⟩).size_ = 2 := by
  have h := (retain_idempotent ⟨2, some (fun n => n + 1), 4, [], 0, 0⟩).2.1
    (fun n => n + 1) rfl
  exact ⟨h.2.1, h.1, h.2.2.1⟩

/-- C10: FindConstraint returns false for null constraints; a mandatory
match returns the first matching mandatory value and bumps the counter
only when the counter is non-null; the optional list is consulted only
when the mandatory list has no match, without touching the counter; no
match in either list gives false.  FindFirst returns the value of the
first entry with a matching key. -/
theorem findConstraint_spec :
    (∀ (key : String) (mc : Option Nat),
      FindConstraint none key mc = (false, none, mc)) ∧
    (∀ (cs : MediaConstraints) (key : String) (n : Nat) (v : String),
      FindFirst cs.mandatory key = some v →
        FindConstraint (some cs) key (some n) = (true, some v, some (n + 1)) ∧
        FindConstraint (some cs) key none = (true, some v, none)) ∧
    (∀ (cs : MediaConstraints) (key : String) (mc : Option Nat) (v : String),
      FindFirst cs.mandatory key = none → FindFirst cs.optional key = some v →
        FindConstraint (some cs) key mc = (true, some v, mc)) ∧
    (∀ (cs : MediaConstraints) (key : String) (mc : Option Nat),
      FindFirst cs.mandatory key = none → FindFirst cs.optional key = none →
        FindConstraint (some cs) key mc = (false, none, mc)) ∧
    (∀ (pre post : List Constraint) (c : Constraint) (key : String),
      (∀ d ∈ pre, d.key ≠ key) → c.key = key →
        FindFirst (pre ++ c :: post) key = some c.value) ∧
    (∀ (l : List Constraint) (key : String),
      (∀ d ∈ l, d.key ≠ key) → FindFirst l key = none) := by
  have hnone : ∀ (l : List Constraint) (key : String),
      (∀ d ∈ l, d.key ≠ key) → FindFirst l key = none := by
    intro l key h
    induction l with
    | nil => rfl
    | cons c rest ih =>
      have hc : c.key ≠ key := h c (List.mem_cons_self _ _)
      simp only [FindFirst, if_neg hc]
      exact ih fun d hd => h d (List.mem_cons_of_mem _ hd)
  refine ⟨?_, ?_, ?_, ?_, ?_, hnone⟩
  · intro key mc; rfl
  · intro cs key n v h
    constructor <;> simp [FindConstraint, h]
  · intro cs key mc v h1 h2
    simp [FindConstraint, h1, h2]
  · intro cs key mc h1 h2
    simp [FindConstraint, h1, h2]
  · intro pre post c key hpre hc
    induction pre with
    | nil => simp [FindFirst, hc]
    | cons d rest ih =>
      have hd : d.key ≠ key := hpre d (List.mem_cons_self _ _)
      simp only [List.cons_append, FindFirst, if_neg hd]
      exact ih fun d' hd' => hpre d' (List.mem_cons_of_mem _ hd')

/-- Witness for C10 at concrete constraint lists. -/
theorem findConstraint_spec_witness :
    FindConstraint
      (some ⟨[⟨"k", "m1"⟩, ⟨"k", "m2"⟩], [⟨"k", "o1"⟩]⟩) "k" (some 0) =
      (true, some "m1", some 1) ∧
    FindConstraint (some ⟨[⟨"x", "m1"⟩], [⟨"k", "o1"⟩]⟩) "k" (some 0) =
      (true, some "o1", some 0) ∧
    FindConstraint none "k" (some 0) = (false, none, some 0) := by
  refine ⟨?_, ?_, ?_⟩
  · exact (findConstraint_spec.2.1 ⟨[⟨"k", "m1"⟩, ⟨"k", "m2"⟩], [⟨"k", "o1"⟩]⟩
      "k" 0 "m1" (by
        have := findConstraint_spec.2.2.2.2.1 [] [⟨"k", "m2"⟩] ⟨"k", "m1"⟩ "k"
          (by intro d hd; cases hd) rfl
        simpa using this)).1
  · exact findConstraint_spec.2.2.1 ⟨[⟨"x", "m1"⟩], [⟨"k", "o1"⟩]⟩ "k" (some 0)
      "o1"
      (findConstraint_spec.2.2.2.2.2 [⟨"x", "m1"⟩] "k" (by
        intro d hd
        simp only [List.mem_cons, List.not_mem_nil, or_false] at hd
        subst hd
        decide))
      (by
        have := findConstraint_spec.2.2.2.2.1 [] [] (⟨"k", "o1"⟩ : Constraint) "k"
          (by intro d hd; cases hd) rfl
        simpa using this)
  · exact findConstraint_spec.1 "k" (some 0)

theorem fateLife_cleanup (i : Nat) (f : Fate) : cleanupCount (fateLife i f) = 1 := by
  cases f <;> rfl

theorem fateLife_run (i : Nat) (f : Fate) : runCount (fateLife i f) ≤ 1 := by
  cases f with
  | executed => exact Nat.le_refl 1
  | discardedAtShutdown => exact Nat.zero_le 1
  | droppedAtPost => exact Nat.zero_le 1

theorem cleanupCount_append (l1 l2 : List CEv) :
    cleanupCount (l1 ++ l2) = cleanupCount l1 + cleanupCount l2 :=
  List.countP_append _ l1 l2

theorem runCount_append (l1 l2 : List CEv) :
    runCount (l1 ++ l2) = runCount l1 + runCount l2 :=
  List.countP_append _ l1 l2

theorem postALotEvents_cleanup (cap k N : Nat) :
    cleanupCount (postALotEvents cap k N) = N := by
  induction N with
  | zero => rfl
  | succ n ih =>
    simp only [postALotEvents] at ih ⊢
    rw [List.range_succ, List.flatMap_append, cleanupCount_append, ih]
    simp [fateLife_cleanup, cleanupCount_append]

theorem postALotEvents_run (cap k N : Nat) :
    runCount (postALotEvents cap k N) ≤ N := by
  induction N with
  | zero => exact Nat.le_refl 0
  | succ n ih =>
    simp only [postALotEvents] at ih ⊢
    rw [List.range_succ, List.flatMap_append, runCount_append]
    have h1 : runCount (([n].flatMap fun i => fateLife i (fateOf cap k i))) ≤ 1 := by
      simpa [runCount_append] using fateLife_run n (fateOf cap k n)
    omega

/-- C3 counterexample: a paired closure task that executes normally does
invoke its run callable and Run does return true, but the cleanup
callable is invoked as well (at task destruction), contradicting the
claim that it is never invoked. -/
theorem paired_cleanup_cex :
    (closureTaskRun 0).2 = true ∧
    CEv.runCallable 0 ∈ pairedTaskNormalLife 0 ∧
    CEv.cleanupCallable 0 ∈ pairedTaskNormalLife 0 := by
  decide

/-- C3 amended: for every paired closure task that executes normally, the
run callable is invoked exactly once and Run returns true; the cleanup
callable is not invoked by Run itself but is invoked exactly once when
the queue subsequently destroys the task, after the run callable. -/
theorem paired_cleanup_on_destruction :
    ∀ tid : Nat,
      (closureTaskRun tid).2 = true ∧
      (closureTaskRun tid).1 = [CEv.runCallable tid] ∧
      pairedTaskNormalLife tid =
        [CEv.runCallable tid, CEv.cleanupCallable tid] ∧
      runCount (pairedTaskNormalLife tid) = 1 ∧
      cleanupCount (pairedTaskNormalLife tid) = 1 := by
  intro tid
  exact ⟨rfl, rfl, rfl, rfl, rfl⟩

/-- C4: with more tasks posted than the transport capacity, the excess
tasks are dropped and destroyed with their cleanup invoked; over N posted
tasks the cleanup invocations number exactly N and at least the run
invocations, and each task either runs (and is then destroyed) or is
dropped and destroyed with cleanup only. -/
theorem postALot_accounting :
    ∀ cap k N : Nat,
      cleanupCount (postALotEvents cap k N) = N ∧
      runCount (postALotEvents cap k N) ≤
        cleanupCount (postALotEvents cap k N) ∧
      (∀ i, cap ≤ i → fateOf cap k i = Fate.droppedAtPost) ∧
      (∀ i, fateLife i (fateOf cap k i) = pairedTaskNormalLife i ∨
            fateLife i (fateOf cap k i) = pairedTaskDroppedLife i) := by
  intro cap k N
  refine ⟨postALotEvents_cleanup cap k N, ?_, ?_, ?_⟩
  · rw [postALotEvents_cleanup]
    exact postALotEvents_run cap k N
  · intro i hi
    simp [fateOf, Nat.not_lt.2 hi]
  · intro i
    rcases Nat.lt_or_ge i cap with h1 | h1
    · rcases Nat.lt_or_ge i k with h2 | h2
      · left; simp [fateOf, h1, h2, fateLife]
      · right; simp [fateOf, h1, Nat.not_lt.2 h2, fateLife]
    · right; simp [fateOf, Nat.not_lt.2 h1, fateLife]

/-- Witness for C4 at concrete capacity 2, run count 1, 4 posted tasks. -/
theorem postALot_accounting_witness :
    cleanupCount (postALotEvents 2 1 4) = 4 ∧
    runCount (postALotEvents 2 1 4) ≤ cleanupCount (postALotEvents 2 1 4) ∧
    fateOf 2 1 3 = Fate.droppedAtPost := by
  have h := postALot_accounting 2 1 4
  exact ⟨h.1, h.2.1, h.2.2.1 3 (by decide)⟩

theorem mem_insertOrdered (e : DEntry) (l : List DEntry) :
    e ∈ insertOrdered e l := by
  induction l with
  | nil => exact List.mem_singleton.2 rfl
  | cons f fs ih =>
    cases hb : entryLE f e with
    | true =>
      simp only [insertOrdered, hb, if_true]
      exact List.mem_cons_of_mem f ih
    | false =>
      simp only [insertOrdered, hb, if_false]
      exact List.mem_cons_self _ _

theorem insertOrdered_append (e : DEntry) (l : List DEntry)
    (h : ∀ f ∈ l, entryLE f e = true) : insertOrdered e l = l ++ [e] := by
  induction l with
  | nil => rfl
  | cons f fs ih =>
    have hf := h f (List.mem_cons_self _ _)
    simp only [insertOrdered, hf, if_true, List.cons_append]
    exact congrArg (f :: ·) (ih fun g hg => h g (List.mem_cons_of_mem _ hg))

theorem batchSched_entries (N : Nat) :
    batchSched N = ⟨(List.range N).map (fun i => ⟨i, i, i⟩), N⟩ := by
  induction N with
  | zero => rfl
  | succ n ih =>
    simp only [batchSched] at ih ⊢
    rw [List.range_succ, List.foldl_append, ih]
    simp only [List.foldl_cons, List.foldl_nil, Sched.schedule, Nat.zero_add]
    rw [insertOrdered_append]
    · rw [List.map_append]
      rfl
    · intro f hf
      obtain ⟨i, hi, rfl⟩ := List.mem_map.1 hf
      have hlt : i < n := List.mem_range.1 hi
      simp [entryLE, hlt]

theorem driveSt_range (fuel : Nat) :
    ∀ k x : Nat,
      driveSt k fuel ⟨(List.range' k fuel).map (fun i => ⟨i, i, i⟩), x⟩ =
        ((List.range' k fuel).map (fun i => (i, i)), ⟨[], x⟩) := by
  induction fuel with
  | zero => intro k x; rfl
  | succ n ih =>
    intro k x
    rw [List.range'_succ k n 1]
    have hdue :
        ((⟨k, k, k⟩ :: (List.range' (k + 1) n).map (fun i => ⟨i, i, i⟩) :
            List DEntry).filter (fun e => decide (e.fireTime ≤ k))) =
          [⟨k, k, k⟩] := by
      rw [List.filter_cons_of_pos (by simp)]
      rw [List.filter_map]
      rw [List.filter_eq_nil_iff.2 ?_]
      · rfl
      · intro i hi
        have : k + 1 ≤ i := (List.mem_range'_1.1 hi).1
        simp only [Function.comp]
        simp
        omega
    have hrem :
        ((⟨k, k, k⟩ :: (List.range' (k + 1) n).map (fun i => ⟨i, i, i⟩) :
            List DEntry).filter (fun e => !decide (e.fireTime ≤ k))) =
          (List.range' (k + 1) n).map (fun i => ⟨i, i, i⟩) := by
      rw [List.filter_cons_of_neg (by simp)]
      apply List.filter_eq_self.2
      intro a ha
      obtain ⟨i, hi, rfl⟩ := List.mem_map.1 ha
      have : k + 1 ≤ i := (List.mem_range'_1.1 hi).1
      simp
      omega
    simp only [List.map_cons, driveSt, Sched.nextDue, hdue, hrem]
    rw [ih (k + 1) x]
    simp

theorem driveSt_idle (fuel : Nat) :
    ∀ now x ft sq nx : Nat, now + fuel ≤ ft →
      driveSt now fuel ⟨[⟨x, ft, sq⟩], nx⟩ = ([], ⟨[⟨x, ft, sq⟩], nx⟩) := by
  induction fuel with
  | zero => intro now x ft sq nx _; rfl
  | succ n ih =>
    intro now x ft sq nx h
    have hlt : ¬ (ft ≤ now) := by omega
    simp only [driveSt, Sched.nextDue]
    rw [List.filter_cons_of_neg (by simp [hlt]), List.filter_cons_of_pos (by simp [hlt])]
    simp only [List.filter_nil, List.map_nil, List.nil_append]
    rw [ih (now + 1) x ft sq nx (by omega)]

/-- C5: a delayed task is scheduled with fire time equal to posting time
plus its delay and is never returned as due before the clock reaches that
fire time (so elapsed time is at least the delay); for the batch of N
delayed tasks with delays 0..N-1 ms posted at time 0, every task runs,
task i at clock time i which is no earlier than its delay i. -/
theorem postDelayedTask_timing :
    (∀ (s : Sched) (now tid delay : Nat),
      (⟨tid, now + delay, s.nextSeq⟩ : DEntry) ∈
        (s.schedule now tid delay).entries) ∧
    (∀ (now : Nat) (s : Sched) (e : DEntry),
      e ∈ (Sched.nextDue now s).1 → e.fireTime ≤ now) ∧
    (∀ (s : Sched) (now0 tid d now : Nat),
      (⟨tid, now0 + d, s.nextSeq⟩ : DEntry) ∈
          (Sched.nextDue now (s.schedule now0 tid d)).1 →
        now0 + d ≤ now ∧ d ≤ now - now0) ∧
    (∀ N : Nat,
      drive 0 N (batchSched N) = (List.range N).map (fun i => (i, i))) ∧
    (∀ N i : Nat, i < N → (i, i) ∈ drive 0 N (batchSched N)) := by
  have hdue : ∀ (now : Nat) (s : Sched) (e : DEntry),
      e ∈ (Sched.nextDue now s).1 → e.fireTime ≤ now := by
    intro now s e he
    have := List.of_mem_filter he
    exact of_decide_eq_true this
  have hbatch : ∀ N : Nat,
      drive 0 N (batchSched N) = (List.range N).map (fun i => (i, i)) := by
    intro N
    rw [drive, batchSched_entries, List.range_eq_range']
    rw [driveSt_range N 0 N]
  refine ⟨?_, hdue, ?_, hbatch, ?_⟩
  · intro s now tid delay
    exact mem_insertOrdered _ _
  · intro s now0 tid d now hmem
    have h := hdue now _ _ hmem
    simp only at h
    exact ⟨h, by omega⟩
  · intro N i hi
    rw [hbatch N]
    exact List.mem_map.2 ⟨i, List.mem_range.2 hi, rfl⟩

/-- Witness for C5 at concrete inputs. -/
theorem postDelayedTask_timing_witness :
    (⟨7, 3 + 2, 0⟩ : DEntry) ∈ ((⟨[], 0⟩ : Sched).schedule 3 7 2).entries ∧
    drive 0 3 (batchSched 3) = [(0, 0), (1, 1), (2, 2)] ∧
    (2, 2) ∈ drive 0 3 (batchSched 3) ∧
    (3 + 2 ≤ 6 ∧ 2 ≤ 6 - 3) := by
  refine ⟨postDelayedTask_timing.1 ⟨[], 0⟩ 3 7 2, ?_,
    postDelayedTask_timing.2.2.2.2 3 2 (by decide), ?_⟩
  · have h := postDelayedTask_timing.2.2.2.1 3
    simpa using h
  · exact postDelayedTask_timing.2.2.1 ⟨[], 0⟩ 3 7 2 6 (by decide)

/-- C6: destroying the queue while a delayed task (delay 100 ms) is still
pending: the run path never executes, and the task is nevertheless
destroyed with its paired cleanup invoked exactly once, by the drain the
delay mechanism performs at destruction. -/
theorem destruct_pending_delayed :
    ∀ x t : Nat, t ≤ 100 →
      destructWithPending x t = [CEv.cleanupCallable x] ∧
      (∀ i, CEv.runCallable i ∉ destructWithPending x t) := by
  intro x t ht
  have h0 : (Sched.schedule ⟨[], 0⟩ 0 x 100) = ⟨[⟨x, 100, 0⟩], 1⟩ := by
    simp [Sched.schedule, insertOrdered]
  have hidle := driveSt_idle t 0 x 100 0 1 (by omega)
  constructor
  · simp only [destructWithPending, h0, hidle, drainOnDestroy]
    rfl
  · intro i
    simp only [destructWithPending, h0, hidle, drainOnDestroy]
    simp

/-- Witness for C6 at concrete task 9 destroyed at time 50. -/
theorem destruct_pending_delayed_witness :
    destructWithPending 9 50 = [CEv.cleanupCallable 9] ∧
    CEv.runCallable 9 ∉ destructWithPending 9 50 := by
  have h := destruct_pending_delayed 9 50 (by decide)
  exact ⟨h.1, h.2 9⟩

theorem sysStep_done_q1 (i : Nat) (rest q2 : List RTask) :
    sysStep false ((⟨i, []⟩ : RTask) :: rest, q2) =
      ([QEv.ran 0 i, QEv.destroyed 0 i], (rest, q2)) := rfl

theorem sysStep_done_q2 (i : Nat) (q1 rest : List RTask) :
    sysStep true (q1, (⟨i, []⟩ : RTask) :: rest) =
      ([QEv.ran 1 i, QEv.destroyed 1 i], (q1, rest)) := rfl

theorem sysStep_transfer (i : Nat) (pl : List RunRes) (rest q2 : List RTask) :
    sysStep false ((⟨i, RunRes.transfer 1 :: pl⟩ : RTask) :: rest, q2) =
      ([QEv.ran 0 i], (rest, q2 ++ [⟨i, pl⟩])) := rfl

theorem runSched_phase1 (front : List RTask) :
    ∀ (l0 q2 : List RTask) (sch : List Bool),
      (∀ t ∈ front, t.plan = []) →
      runSched (List.replicate front.length false ++ sch) (front ++ l0, q2) =
        (front.flatMap fun t => [QEv.ran 0 t.tid, QEv.destroyed 0 t.tid]) ++
          runSched sch (l0, q2) := by
  induction front with
  | nil => intro l0 q2 sch _; simp
  | cons t fr ih =>
    intro l0 q2 sch h
    obtain ⟨i, pl⟩ := t
    have hpl : pl = [] := h ⟨i, pl⟩ (List.mem_cons_self _ _)
    subst hpl
    simp only [List.length_cons, List.replicate_succ, List.cons_append,
      runSched, sysStep_done_q1, List.append_eq]
    rw [ih l0 q2 sch fun u hu => h u (List.mem_cons_of_mem _ hu)]
    simp

theorem runSched_phase2 (q2f : List RTask) :
    ∀ (l0 : List RTask) (sch : List Bool),
      (∀ t ∈ q2f, t.plan = []) →
      runSched (List.replicate q2f.length true ++ sch) ([], q2f ++ l0) =
        (q2f.flatMap fun t => [QEv.ran 1 t.tid, QEv.destroyed 1 t.tid]) ++
          runSched sch ([], l0) := by
  induction q2f with
  | nil => intro l0 sch _; simp
  | cons t fr ih =>
    intro l0 sch h
    obtain ⟨i, pl⟩ := t
    have hpl : pl = [] := h ⟨i, pl⟩ (List.mem_cons_self _ _)
    subst hpl
    simp only [List.length_cons, List.replicate_succ, List.cons_append,
      runSched, sysStep_done_q2, List.append_eq]
    rw [ih l0 sch fun u hu => h u (List.mem_cons_of_mem _ hu)]
    simp

theorem filter_flatMap_ne (l : List RTask) (qi x : Nat)
    (h : ∀ t ∈ l, t.tid ≠ x) :
    (l.flatMap fun t => [QEv.ran qi t.tid, QEv.destroyed qi t.tid]).filter
        (fun e => decide (e.taskId = x)) = [] := by
  rw [List.filter_eq_nil_iff]
  intro a ha
  obtain ⟨t, ht, hmem⟩ := List.mem_flatMap.1 ha
  have hne := h t ht
  simp only [List.mem_cons, List.not_mem_nil, or_false] at hmem
  rcases hmem with rfl | rfl <;> simp [QEv.taskId, hne]

/-- C2: a task whose Run returns false (ownership transferred) is removed
from the running queue with no destroy action and handed whole to the
target queue; in a full run of the two-queue system, the original queue
ran it exactly once and never destroyed it, and the second queue ran it
exactly once and then destroyed it. -/
theorem detach_transfer_ownership :
    (∀ (i : Nat) (pl : List RunRes) (rest q2 : List RTask),
      sysStep false ((⟨i, RunRes.transfer 1 :: pl⟩ : RTask) :: rest, q2) =
        ([QEv.ran 0 i], (rest, q2 ++ [⟨i, pl⟩]))) ∧
    (∀ (x : Nat) (front q2init : List RTask),
      (∀ t ∈ front, t.plan = []) → (∀ t ∈ front, t.tid ≠ x) →
      (∀ t ∈ q2init, t.plan = []) → (∀ t ∈ q2init, t.tid ≠ x) →
      (runSched
          (List.replicate (front.length + 1) false ++
            List.replicate (q2init.length + 1) true)
          (front ++ [⟨x, [RunRes.transfer 1]⟩], q2init)).filter
          (fun e => decide (e.taskId = x)) =
        [QEv.ran 0 x, QEv.ran 1 x, QEv.destroyed 1 x]) := by
  refine ⟨sysStep_transfer, ?_⟩
  intro x front q2init hfp hfx hqp hqx
  rw [List.replicate_succ' front.length false, List.append_assoc]
  rw [runSched_phase1 front [⟨x, [RunRes.transfer 1]⟩] q2init _ hfp]
  have hstep1 :
      runSched ([false] ++ List.replicate (q2init.length + 1) true)
          ([⟨x, [RunRes.transfer 1]⟩], q2init) =
        [QEv.ran 0 x] ++
          runSched (List.replicate (q2init.length + 1) true)
            ([], q2init ++ [⟨x, []⟩]) := by
    simp only [List.cons_append, List.nil_append, runSched, sysStep_transfer]
  rw [hstep1]
  rw [List.replicate_succ' q2init.length true]
  rw [runSched_phase2 q2init [⟨x, []⟩] [true] hqp]
  have hstep2 :
      runSched [true] (([] : List RTask), [(⟨x, []⟩ : RTask)]) =
        [QEv.ran 1 x, QEv.destroyed 1 x] := rfl
  rw [hstep2]
  rw [List.filter_append, List.filter_append, List.filter_append]
  rw [filter_flatMap_ne front 0 x hfx, filter_flatMap_ne q2init 1 x hqx]
  simp [QEv.taskId]

/-- Witness for C2 at a concrete two-queue run. -/
theorem detach_transfer_ownership_witness :
    (runSched [false, false, true, true]
        ([⟨5, []⟩, ⟨7, [RunRes.transfer 1]⟩], [⟨6, []⟩])).filter
        (fun e => decide (e.taskId = 7)) =
      [QEv.ran 0 7, QEv.ran 1 7, QEv.destroyed 1 7] := by
  have h := detach_transfer_ownership.2 7 [⟨5, []⟩] [⟨6, []⟩]
    (by intro t ht; simp only [List.mem_cons, List.not_mem_nil, or_false] at ht;
        subst ht; rfl)
    (by intro t ht; simp only [List.mem_cons, List.not_mem_nil, or_false] at ht;
        subst ht; decide)
    (by intro t ht; simp only [List.mem_cons, List.not_mem_nil, or_false] at ht;
        subst ht; rfl)
    (by intro t ht; simp only [List.mem_cons, List.not_mem_nil, or_false] at ht;
        subst ht; decide)
  simpa using h
